import Mathlib

/-!
Verification of the noema indexing and retrieval core.

Strings are modelled as lists of bytes (`Str := List Nat`), because the
Rust code slices strings at byte offsets (`text[..n]`), an operation that
panics when the offset is not a UTF-8 character boundary.  Every slice the
source performs is guarded here by the same character-boundary check that
Rust performs, and a panic is modelled as `none` in the `Option` monad.
`trim` / `trim_start` are modelled on the ASCII whitespace bytes
(tab through carriage return, and space); the source trims Unicode
whitespace as well, which differs only on multi-byte whitespace bytes and
affects none of the verified properties.

Floating point embeddings (`f32`) are modelled as rational numbers, with
the square root of the sum of squares passed in as an explicit function
`sqrtFn`; the store's behaviour is proved for every choice of `sqrtFn`
with the algebraic properties the claims need stated as hypotheses.
-/

/-- Byte strings: a Rust `&str` / `String` as its list of UTF-8 bytes. -/
abbrev Str := List Nat

/-- ASCII whitespace bytes (the ASCII fragment of Rust `char::is_whitespace`):
tab 9, LF 10, VT 11, FF 12, CR 13, space 32. -/
def isWsByte (b : Nat) : Bool :=
  b == 9 || b == 10 || b == 11 || b == 12 || b == 13 || b == 32

/-- Rust `str::trim_start` (ASCII fragment): drop leading whitespace. -/
def trimStart (s : Str) : Str := s.dropWhile isWsByte

/-- Rust `str::trim_end` (ASCII fragment): drop trailing whitespace. -/
def trimEnd (s : Str) : Str := (s.reverse.dropWhile isWsByte).reverse

/-- Rust `str::trim` (ASCII fragment). -/
def trim (s : Str) : Str := trimEnd (trimStart s)

/-- UTF-8 continuation bytes `0x80..=0xBF`. -/
def isContinuation (b : Nat) : Bool := 128 ≤ b && b < 192

/-- Rust `str::is_char_boundary`: true at 0 and at the length, false beyond
the length, and otherwise true iff the byte at `i` is not a continuation
byte. -/
def isCharBoundary (s : Str) (i : Nat) : Bool :=
  i == 0 || i == s.length || (decide (i < s.length) && !isContinuation (s.getD i 0))

/-- Rust `&text[..i]`: the first `i` bytes, panicking (`none`) unless `i`
is a char boundary. -/
def sliceTo (s : Str) (i : Nat) : Option Str :=
  if isCharBoundary s i then some (s.take i) else none

/-- Rust `&text[i..]`: the bytes from `i` on, panicking (`none`) unless `i`
is a char boundary. -/
def sliceFrom (s : Str) (i : Nat) : Option Str :=
  if isCharBoundary s i then some (s.drop i) else none

/-- Byte index of the last occurrence of byte `b` in `s`
(Rust `str::rfind` with a one-byte ASCII pattern). -/
def rfindByte : Str → Nat → Option Nat
  | [], _ => none
  | c :: rest, b =>
    match rfindByte rest b with
    | some i => some (i + 1)
    | none => if c == b then some 0 else none

/-- Byte index of the first occurrence of `pat` as a contiguous sub-sequence
of `s` (Rust `str::find` with a string pattern). -/
def findSub : Str → Str → Option Nat
  | s, pat =>
    if pat.isPrefixOf s then some 0
    else
      match s with
      | [] => none
      | _ :: rest => (findSub rest pat).map (· + 1)

/-- Rust `text.split("\x7b\n\n\x7d")` specialised to the two-byte separator
`[10, 10]`: split on leftmost non-overlapping occurrences.  `acc` holds the
bytes of the current piece in reverse. -/
def splitNNGo : Str → Str → List Str
  | acc, [] => [acc.reverse]
  | acc, 10 :: 10 :: rest => acc.reverse :: splitNNGo [] rest
  | acc, c :: rest => splitNNGo (c :: acc) rest

/-- Rust `text.split("\n\n")` (the paragraph separator in the source). -/
def splitNN (s : Str) : List Str := splitNNGo [] s

/-! ## notes.rs -/

/-- A discovered note (src/crates/noema-core/src/notes.rs, `Note`). -/
structure Note where
  path : Str
  raw : Str
  body : Str
deriving DecidableEq

/-- The bytes of `"---"`. -/
def hyphen3 : Str := [45, 45, 45]

/-- The bytes of `"\n---"`. -/
def nlHyphen3 : Str := [10, 45, 45, 45]

/-- `strip_frontmatter` (notes.rs): if the trimmed content starts with
`"---"`, drop that delimiter, trim leading whitespace, and search the rest
for the substring `"\n---"`; when found, the body is everything after those
four bytes with leading whitespace trimmed, otherwise the whole content is
returned unchanged.  The slice at `rest + 4` sits immediately after an
ASCII hyphen, so Rust's boundary check cannot fail on valid UTF-8 and the
slice is modelled as total. -/
def strip_frontmatter (content : Str) : Str :=
  let s := trimStart content
  if hyphen3.isPrefixOf s then
    let after_first := trimStart (s.drop 3)
    match findSub after_first nlHyphen3 with
    | some rest => trimStart (after_first.drop (rest + 4))
    | none => content
  else content

/-! ## chunks.rs -/

/-- `DEFAULT_MAX_CHARS` (chunks.rs). -/
def DEFAULT_MAX_CHARS : Nat := 512

/-- A chunk of text from a note (chunks.rs, `Chunk`). -/
structure Chunk where
  text : Str
  note_path : Str
  index : Nat
deriving DecidableEq

/-- `try_split_at_boundary` (chunks.rs): prefer a split at the last `\n`
within the first `min (len, max_chars + 1)` bytes; else at the last space
there; else hard-cut at byte `max_chars`.  Each Rust string slice is
guarded by the char-boundary check; `none` models a panic. -/
def try_split_at_boundary (text : Str) (max_chars : Nat) : Option (Str × Str) :=
  match sliceTo text (min text.length (max_chars + 1)) with
  | none => none
  | some segment =>
    match rfindByte segment 10 with
    | some pos =>
      match sliceTo text pos, sliceFrom text (pos + 1) with
      | some a, some b => some (trim a, trimStart b)
      | _, _ => none
    | none =>
      match rfindByte segment 32 with
      | some pos =>
        match sliceTo text pos, sliceFrom text (pos + 1) with
        | some a, some b => some (a, trimStart b)
        | _, _ => none
      | none =>
        match sliceTo text max_chars, sliceFrom text max_chars with
        | some a, some b => some (a, trimStart b)
        | _, _ => none

/-- The loop body of `split_long_text` (chunks.rs), with explicit fuel.
Running out of fuel (`none`) models divergence, which the Rust loop would
exhibit only for `max_chars = 0`, a case its callers exclude. -/
def splitLongGo (max_chars : Nat) : Nat → Str → Option (List Str)
  | 0, remaining => if remaining.isEmpty then some [] else none
  | fuel + 1, remaining =>
    if remaining.isEmpty then some []
    else if remaining.length ≤ max_chars then some [trim remaining]
    else
      match try_split_at_boundary remaining max_chars with
      | none => none
      | some (chunk, rest) =>
        match splitLongGo max_chars fuel rest with
        | none => none
        | some l => some (chunk :: l)

/-- `split_long_text` (chunks.rs).  The fuel `text.length + 1` is enough
whenever `max_chars > 0`, since each iteration strictly shortens the
remaining text. -/
def split_long_text (text : Str) (max_chars : Nat) : Option (List Str) :=
  splitLongGo max_chars (text.length + 1) text

/-- The body of the paragraph loop in `split_into_chunks` (chunks.rs):
trim the paragraph, skip it when empty, keep it whole when it fits the
budget, and otherwise split it with `split_long_text`. -/
def paraChunks (max_chars : Nat) (para : Str) : Option (List Str) :=
  let p := trim para
  if p.isEmpty then some []
  else if p.length ≤ max_chars then some [p]
  else split_long_text p max_chars

/-- `Option`-valued map, short-circuiting at the first failure, mirroring
a Rust loop that can panic mid-way. -/
def mapOpt (f : α → Option β) : List α → Option (List β)
  | [] => some []
  | x :: xs =>
    match f x with
    | none => none
    | some y =>
      match mapOpt f xs with
      | none => none
      | some ys => some (y :: ys)

/-- `split_into_chunks` (chunks.rs): budget 0 keeps the text whole;
otherwise split into paragraphs at blank lines and process each, falling
back to splitting the whole trimmed text when the paragraph pass produced
nothing but the trimmed text is non-empty. -/
def split_into_chunks (text : Str) (max_chars : Nat) : Option (List Str) :=
  if max_chars = 0 then some [text]
  else
    match mapOpt (paraChunks max_chars) (splitNN text) with
    | none => none
    | some ls =>
      let result := ls.flatten
      if result.isEmpty && !(trim text).isEmpty then
        split_long_text (trim text) max_chars
      else some result

/-- `chunk_note` (chunks.rs): trim the body, return no chunks when empty,
otherwise enumerate the pieces of `split_into_chunks`, trim each, skip the
ones that are empty after trimming, and record the enumeration position as
the chunk index and the note's path as the chunk's origin. -/
def chunk_note (note : Note) (max_chars : Nat) : Option (List Chunk) :=
  let body := trim note.body
  if body.isEmpty then some []
  else
    match split_into_chunks body max_chars with
    | none => none
    | some pieces =>
      some (pieces.enum.filterMap fun it =>
        let t := trim it.2
        if t.isEmpty then none
        else some { text := t, note_path := note.path, index := it.1 })

/-- `chunk_notes` (chunks.rs): concatenate every note's chunks in order. -/
def chunk_notes (notes : List Note) (max_chars : Nat) : Option (List Chunk) :=
  (mapOpt (fun n => chunk_note n max_chars) notes).map List.flatten

example : splitNN [97, 10, 10, 10, 98] = [[97], [10, 98]] := by decide

example : chunk_note ⟨[112], [], [80, 49, 10, 10, 80, 50, 10, 10, 80, 51]⟩ 512 =
    some [⟨[80, 49], [112], 0⟩, ⟨[80, 50], [112], 1⟩, ⟨[80, 51], [112], 2⟩] := by decide

/-! ## store.rs -/

namespace Store

/-- Sum of squares of a vector, `v.iter().map(|x| x * x).sum()` in
`normalize` (store.rs). -/
def sumSq (v : List ℚ) : ℚ := (v.map (fun x => x * x)).sum

/-- `normalize` (store.rs): divide by the Euclidean norm unless that norm
is non-positive, in which case the vector is returned unchanged.  The
square root computed by `f32::sqrt` is supplied as `sqrtFn`. -/
def normalize (sqrtFn : ℚ → ℚ) (v : List ℚ) : List ℚ :=
  let norm := sqrtFn (sumSq v)
  if norm ≤ 0 then v else v.map (fun x => x / norm)

/-- `dot` (store.rs): sum of products over indices below the shorter
length, written exactly as the source's indexed loop. -/
def dot (a b : List ℚ) : ℚ :=
  ((List.range (min a.length b.length)).map (fun i => a.getD i 0 * b.getD i 0)).sum

end Store

/-- `IndexedChunk` (store.rs): a chunk with its stored embedding. -/
structure IndexedChunk where
  chunk : Chunk
  embedding : List ℚ
deriving DecidableEq

/-- `VectorStore` (store.rs). -/
structure VectorStore where
  items : List IndexedChunk
deriving DecidableEq

/-- `VectorStore::new` (store.rs). -/
def VectorStore.new : VectorStore := ⟨[]⟩

/-- `VectorStore::add` (store.rs): normalize the embedding and push a new
entry at the end. -/
def VectorStore.add (sqrtFn : ℚ → ℚ) (s : VectorStore) (chunk : Chunk)
    (embedding : List ℚ) : VectorStore :=
  ⟨s.items ++ [⟨chunk, Store.normalize sqrtFn embedding⟩]⟩

/-- `VectorStore::add_batch` (store.rs): `assert_eq!` on the lengths
(`none` models the panic), then `add` pairwise in order. -/
def VectorStore.add_batch (sqrtFn : ℚ → ℚ) (s : VectorStore) (chunks : List Chunk)
    (embeddings : List (List ℚ)) : Option VectorStore :=
  if chunks.length = embeddings.length then
    some ((chunks.zip embeddings).foldl
      (fun st p => st.add sqrtFn p.1 p.2) s)
  else none

/-- The comparator passed to `sort_by` in `search` (store.rs):
`b.1.partial_cmp(&a.1).unwrap_or(Equal)` orders by descending score; as a
boolean "may `a` stay before `b`" relation for a stable sort this is
`b.2 ≤ a.2`. -/
def scoreLe (a b : Chunk × ℚ) : Bool := decide (b.2 ≤ a.2)

/-- `VectorStore::search` (store.rs): empty store or empty query give an
empty result; otherwise score every entry by the dot product with the
normalized query, stable-sort by descending score, and take `k`. -/
def VectorStore.search (sqrtFn : ℚ → ℚ) (s : VectorStore) (query_embedding : List ℚ)
    (k : Nat) : List (Chunk × ℚ) :=
  if s.items.isEmpty || query_embedding.isEmpty then []
  else
    let q_norm := Store.normalize sqrtFn query_embedding
    let scored := s.items.map (fun ic => (ic.chunk, Store.dot q_norm ic.embedding))
    (scored.mergeSort scoreLe).take k

/-- `VectorStore::len` (store.rs). -/
def VectorStore.len (s : VectorStore) : Nat := s.items.length

/-- `VectorStore::is_empty` (store.rs). -/
def VectorStore.isEmptyStore (s : VectorStore) : Bool := s.items.isEmpty

/-! ## index.rs -/

/-- `IndexError` (index.rs), with the payloads of the wrapped `ScanError`
and `OllamaError` left abstract. -/
inductive IndexError (ε ω : Type) where
  | scan : ε → IndexError ε ω
  | ollama : ω → IndexError ε ω
deriving DecidableEq

/-- `build_index` (index.rs).  The filesystem scan is supplied as its
result (`scanResult`) and the embedding provider as the function
`embed_batch`; `none` models a panic in chunking or in the batch insert. -/
def build_index (sqrtFn : ℚ → ℚ) (scanResult : Except ε (List Note))
    (embed_batch : List Str → Except ω (List (List ℚ)))
    (max_chars : Option Nat) : Option (Except (IndexError ε ω) VectorStore) :=
  match scanResult with
  | .error e => some (.error (.scan e))
  | .ok notes =>
    let mc := max_chars.getD DEFAULT_MAX_CHARS
    match chunk_notes notes mc with
    | none => none
    | some chunks =>
      if chunks.isEmpty then some (.ok VectorStore.new)
      else
        let texts := chunks.map (·.text)
        match embed_batch texts with
        | .error e => some (.error (.ollama e))
        | .ok embeddings =>
          match VectorStore.new.add_batch sqrtFn chunks embeddings with
          | none => none
          | some store => some (.ok store)

example : Store.normalize (fun _ => 5) [3, 4] = [3/5, 4/5] := by
  norm_num [Store.normalize, Store.sumSq]

example : Store.dot [1, 2, 3] [4, 5] = 14 := by
  norm_num [Store.dot, List.range_succ]

/-! ## Whitespace, trimming, and filtering lemmas -/

/-- The non-whitespace bytes of a string, in order.  Two strings agree "up
to whitespace" exactly when their `filterNW` images are equal. -/
def filterNW (s : Str) : Str := s.filter (fun b => !isWsByte b)

theorem filterNW_append (a b : Str) : filterNW (a ++ b) = filterNW a ++ filterNW b := by
  simp [filterNW]

theorem filterNW_dropWhile (s : Str) :
    filterNW (s.dropWhile isWsByte) = filterNW s := by
  induction s with
  | nil => rfl
  | cons c rest ih =>
    by_cases h : isWsByte c
    · simpa [filterNW, List.dropWhile_cons, h] using ih
    · simp [filterNW, List.dropWhile_cons, h]

theorem filterNW_trimStart (s : Str) : filterNW (trimStart s) = filterNW s :=
  filterNW_dropWhile s

/-- `trimEnd s` together with the trimmed-off all-whitespace tail
reassembles `s`. -/
theorem trimEnd_append_eq (s : Str) :
    trimEnd s ++ (s.reverse.takeWhile isWsByte).reverse = s := by
  have h : (s.reverse.dropWhile isWsByte).reverse ++ (s.reverse.takeWhile isWsByte).reverse
      = (s.reverse.takeWhile isWsByte ++ s.reverse.dropWhile isWsByte).reverse := by
    rw [List.reverse_append]
  rw [trimEnd, h, List.takeWhile_append_dropWhile, List.reverse_reverse]

theorem filterNW_trimEnd (s : Str) : filterNW (trimEnd s) = filterNW s := by
  conv_rhs => rw [← trimEnd_append_eq s]
  rw [filterNW_append]
  have h : filterNW (s.reverse.takeWhile isWsByte).reverse = [] := by
    simp only [filterNW, List.filter_eq_nil_iff]
    intro b hb
    have := List.mem_takeWhile_imp (List.mem_reverse.mp hb)
    simpa using this
  simp [h]

theorem filterNW_trim (s : Str) : filterNW (trim s) = filterNW s := by
  rw [trim, filterNW_trimEnd, filterNW_trimStart]

theorem filterNW_eq_nil_of_trim_eq_nil {s : Str} (h : trim s = []) : filterNW s = [] := by
  rw [← filterNW_trim s, h]; rfl

theorem trimStart_length_le (s : Str) : (trimStart s).length ≤ s.length :=
  (List.dropWhile_sublist isWsByte).length_le

theorem trimEnd_length_le (s : Str) : (trimEnd s).length ≤ s.length := by
  conv_rhs => rw [← trimEnd_append_eq s]
  simp

theorem trim_length_le (s : Str) : (trim s).length ≤ s.length :=
  le_trans (trimEnd_length_le _) (trimStart_length_le _)

/-- A string that is empty or starts with a non-whitespace byte.  Trimmed
strings and `trim_start` results have this shape, and the chunker's
remaining text keeps it as an invariant. -/
def goodStart : Str → Bool
  | [] => true
  | b :: _ => !isWsByte b

theorem goodStart_trimStart (s : Str) : goodStart (trimStart s) = true := by
  induction s with
  | nil => rfl
  | cons c rest ih =>
    by_cases h : isWsByte c
    · simpa [trimStart, List.dropWhile_cons, h] using ih
    · simp [trimStart, goodStart, List.dropWhile_cons, h]

theorem trimStart_eq_self {s : Str} (h : goodStart s = true) : trimStart s = s := by
  cases s with
  | nil => rfl
  | cons c rest =>
    simp only [goodStart, Bool.not_eq_true'] at h
    simp [trimStart, List.dropWhile_cons, h]

theorem goodStart_trimEnd {s : Str} (h : goodStart s = true) : goodStart (trimEnd s) = true := by
  have hre := trimEnd_append_eq s
  cases hte : trimEnd s with
  | nil => rfl
  | cons c rest =>
    cases s with
    | nil => simp [trimEnd] at hte
    | cons b t =>
      rw [hte] at hre
      have : c = b := by
        have := congrArg (fun l => l.headI) hre
        simpa using this
      simp only [goodStart, Bool.not_eq_true'] at h ⊢
      rw [this]; exact h

theorem goodStart_trim (s : Str) : goodStart (trim s) = true :=
  goodStart_trimEnd (goodStart_trimStart s)

theorem trimEnd_ne_nil {s : Str} {b : Nat} (hb : b ∈ s) (hw : isWsByte b = false) :
    trimEnd s ≠ [] := by
  intro hnil
  have : s.reverse.dropWhile isWsByte = [] := by
    have := congrArg List.reverse hnil
    simpa [trimEnd] using this
  have hall := List.dropWhile_eq_nil_iff.mp this
  have := hall b (List.mem_reverse.mpr hb)
  rw [hw] at this
  exact Bool.false_ne_true this

/-- A non-empty string starting with a non-whitespace byte survives
trimming. -/
theorem trim_ne_nil {s : Str} (hgs : goodStart s = true) (hne : s ≠ []) : trim s ≠ [] := by
  cases s with
  | nil => exact absurd rfl hne
  | cons b t =>
    simp only [goodStart, Bool.not_eq_true'] at hgs
    rw [trim, trimStart_eq_self]
    · exact trimEnd_ne_nil (List.mem_cons_self b t) hgs
    · simpa [goodStart] using hgs

theorem getD_take_eq {l : Str} {n i : Nat} (h : i < n) :
    (l.take n).getD i 0 = l.getD i 0 := by
  simp [List.getD_eq_getElem?_getD, List.getElem?_take_of_lt h]

theorem rfindByte_spec {s : Str} {b i : Nat} (h : rfindByte s b = some i) :
    i < s.length ∧ s.getD i 0 = b := by
  induction s generalizing i with
  | nil => simp [rfindByte] at h
  | cons c rest ih =>
    rw [rfindByte] at h
    cases hr : rfindByte rest b with
    | some j =>
      rw [hr] at h
      cases h
      obtain ⟨h1, h2⟩ := ih hr
      exact ⟨by simpa using Nat.succ_lt_succ h1, by simpa using h2⟩
    | none =>
      rw [hr] at h
      by_cases hc : c == b
      · simp only [hc, if_true] at h
        cases h
        refine ⟨Nat.succ_pos _, ?_⟩
        have hc' : c = b := by simpa using hc
        simpa using hc'
      · simp [hc] at h

/-- The first byte of a non-empty string with a good start is not found by
a whitespace-byte search, so any found position is at least 1. -/
theorem rfind_pos_ne_zero {text : Str} {m pos b : Nat}
    (hgs : goodStart text = true) (hne : text ≠ [])
    (hb : isWsByte b = true)
    (h : rfindByte (text.take m) b = some pos) : pos ≠ 0 := by
  intro h0
  subst h0
  obtain ⟨hlt, heq⟩ := rfindByte_spec h
  cases text with
  | nil => exact hne rfl
  | cons c t =>
    have hmx : 0 < m := by
      by_contra hz
      simp [Nat.le_zero.mp (Nat.not_lt.mp hz)] at hlt
    have : c = b := by
      have := heq
      rw [getD_take_eq hmx] at this
      simpa using this
    simp only [goodStart, Bool.not_eq_true'] at hgs
    rw [this, hb] at hgs
    exact Bool.noConfusion hgs

theorem sliceTo_eq {s : Str} {i : Nat} {a : Str} (h : sliceTo s i = some a) :
    a = s.take i := by
  rw [sliceTo] at h
  split at h
  · exact (Option.some.inj h).symm
  · exact absurd h (by simp)

theorem sliceFrom_eq {s : Str} {i : Nat} {a : Str} (h : sliceFrom s i = some a) :
    a = s.drop i := by
  rw [sliceFrom] at h
  split at h
  · exact (Option.some.inj h).symm
  · exact absurd h (by simp)

theorem filterNW_cons_ws {b : Nat} {l : Str} (hb : isWsByte b = true) :
    filterNW (b :: l) = filterNW l := by
  simp [filterNW, hb]

theorem take_pos_ne_nil {text : Str} {pos : Nat} (hne : text ≠ []) (hpos : pos ≠ 0) :
    text.take pos ≠ [] ∧ goodStart (text.take pos) = goodStart text := by
  cases text with
  | nil => exact absurd rfl hne
  | cons c t =>
    obtain ⟨k, rfl⟩ := Nat.exists_eq_succ_of_ne_zero hpos
    exact ⟨by simp, by simp [goodStart]⟩

/-- Combined specification of one `try_split_at_boundary` step, under the
invariants the callers maintain: the emitted chunk carries exactly the
non-whitespace bytes that the remainder does not, fits the budget, is
non-empty after trimming, and the remainder again has a good start. -/
theorem try_split_spec {text : Str} {mx : Nat} {chunk rest : Str}
    (hmax : 0 < mx) (hgs : goodStart text = true) (hlen : mx < text.length)
    (h : try_split_at_boundary text mx = some (chunk, rest)) :
    filterNW chunk ++ filterNW rest = filterNW text ∧
    chunk.length ≤ mx ∧ trim chunk ≠ [] ∧ goodStart rest = true := by
  have hne : text ≠ [] := by
    intro hnil; rw [hnil] at hlen; simp at hlen
  have hmin : min text.length (mx + 1) = mx + 1 := Nat.min_eq_right (by omega)
  rw [try_split_at_boundary, hmin] at h
  cases hseg : sliceTo text (mx + 1) with
  | none => rw [hseg] at h; exact absurd h (by simp)
  | some segment =>
  rw [hseg] at h
  dsimp only at h
  have hsegeq : segment = text.take (mx + 1) := sliceTo_eq hseg
  have hseglen : segment.length = mx + 1 := by
    rw [hsegeq, List.length_take]; omega
  cases hnl : rfindByte segment 10 with
  | some pos =>
    rw [hnl] at h
    dsimp only at h
    obtain ⟨hposlt, hposbyte⟩ := rfindByte_spec hnl
    rw [hseglen] at hposlt
    have hposle : pos ≤ mx := by omega
    have hpl : pos < text.length := by omega
    have hbyte : text.getD pos 0 = 10 := by
      rw [hsegeq] at hposbyte
      rw [← getD_take_eq (l := text) (n := mx + 1) (by omega)]
      exact hposbyte
    have hpos0 : pos ≠ 0 := by
      refine rfind_pos_ne_zero (b := 10) (m := mx + 1) hgs hne (by simp [isWsByte]) ?_
      rw [← hsegeq]; exact hnl
    cases ha : sliceTo text pos with
    | none => rw [ha] at h; exact absurd h (by simp)
    | some a =>
    cases hb : sliceFrom text (pos + 1) with
    | none => rw [ha, hb] at h; exact absurd h (by simp)
    | some b =>
    rw [ha, hb] at h
    dsimp only at h
    obtain ⟨hchunk, hrest⟩ := Prod.mk.injEq .. ▸ Option.some.inj h
    have haeq : a = text.take pos := sliceTo_eq ha
    have hbeq : b = text.drop (pos + 1) := sliceFrom_eq hb
    have hsplit : text = text.take pos ++ 10 :: text.drop (pos + 1) := by
      conv_lhs => rw [← List.take_append_drop pos text]
      rw [List.drop_eq_getElem_cons hpl]
      congr 1
      have := hbyte
      rw [List.getD_eq_getElem?_getD, List.getElem?_eq_getElem hpl] at this
      simp only [Option.getD_some] at this
      rw [this]
    obtain ⟨htne, hgstake⟩ := take_pos_ne_nil hne hpos0
    rw [hgs] at hgstake
    constructor
    · rw [← hchunk, ← hrest, ← haeq] at *
      rw [← hchunk, ← hrest]
      calc filterNW (trim a) ++ filterNW (trimStart b)
          = filterNW a ++ filterNW b := by rw [filterNW_trim, filterNW_trimStart]
        _ = filterNW text := by
            conv_rhs => rw [hsplit]
            rw [filterNW_append, filterNW_cons_ws (by simp [isWsByte]), haeq, hbeq]
    · refine ⟨?_, ?_, ?_⟩
      · rw [← hchunk, haeq]
        calc (trim (text.take pos)).length ≤ (text.take pos).length := trim_length_le _
          _ ≤ pos := by simp
          _ ≤ mx := hposle
      · rw [← hchunk, haeq]
        exact trim_ne_nil (goodStart_trim _) (trim_ne_nil hgstake htne)
      · rw [← hrest]; exact goodStart_trimStart b
  | none =>
  rw [hnl] at h
  dsimp only at h
  cases hsp : rfindByte segment 32 with
  | some pos =>
    rw [hsp] at h
    dsimp only at h
    obtain ⟨hposlt, hposbyte⟩ := rfindByte_spec hsp
    rw [hseglen] at hposlt
    have hposle : pos ≤ mx := by omega
    have hpl : pos < text.length := by omega
    have hpos0 : pos ≠ 0 := by
      refine rfind_pos_ne_zero (b := 32) (m := mx + 1) hgs hne (by simp [isWsByte]) ?_
      rw [← hsegeq]; exact hsp
    cases ha : sliceTo text pos with
    | none => rw [ha] at h; exact absurd h (by simp)
    | some a =>
    cases hb : sliceFrom text (pos + 1) with
    | none => rw [ha, hb] at h; exact absurd h (by simp)
    | some b =>
    rw [ha, hb] at h
    dsimp only at h
    obtain ⟨hchunk, hrest⟩ := Prod.mk.injEq .. ▸ Option.some.inj h
    have haeq : a = text.take pos := sliceTo_eq ha
    have hbeq : b = text.drop (pos + 1) := sliceFrom_eq hb
    have hbyte : text.getD pos 0 = 32 := by
      rw [hsegeq] at hposbyte
      rw [← getD_take_eq (l := text) (n := mx + 1) (by omega)]
      exact hposbyte
    have hsplit : text = text.take pos ++ 32 :: text.drop (pos + 1) := by
      conv_lhs => rw [← List.take_append_drop pos text]
      rw [List.drop_eq_getElem_cons hpl]
      congr 1
      have := hbyte
      rw [List.getD_eq_getElem?_getD, List.getElem?_eq_getElem hpl] at this
      simp only [Option.getD_some] at this
      rw [this]
    obtain ⟨htne, hgstake⟩ := take_pos_ne_nil hne hpos0
    rw [hgs] at hgstake
    constructor
    · rw [← hchunk, ← hrest]
      calc filterNW a ++ filterNW (trimStart b)
          = filterNW a ++ filterNW b := by rw [filterNW_trimStart]
        _ = filterNW text := by
            conv_rhs => rw [hsplit]
            rw [filterNW_append, filterNW_cons_ws (by simp [isWsByte]), haeq, hbeq]
    · refine ⟨?_, ?_, ?_⟩
      · rw [← hchunk, haeq]
        calc (text.take pos).length ≤ pos := by simp
          _ ≤ mx := hposle
      · rw [← hchunk, haeq]
        exact trim_ne_nil hgstake htne
      · rw [← hrest]; exact goodStart_trimStart b
  | none =>
  rw [hsp] at h
  dsimp only at h
  cases ha : sliceTo text mx with
  | none => rw [ha] at h; exact absurd h (by simp)
  | some a =>
  cases hb : sliceFrom text mx with
  | none => rw [ha, hb] at h; exact absurd h (by simp)
  | some b =>
  rw [ha, hb] at h
  dsimp only at h
  obtain ⟨hchunk, hrest⟩ := Prod.mk.injEq .. ▸ Option.some.inj h
  have haeq : a = text.take mx := sliceTo_eq ha
  have hbeq : b = text.drop mx := sliceFrom_eq hb
  obtain ⟨htne, hgstake⟩ := take_pos_ne_nil hne (Nat.pos_iff_ne_zero.mp hmax)
  rw [hgs] at hgstake
  constructor
  · rw [← hchunk, ← hrest]
    calc filterNW a ++ filterNW (trimStart b)
        = filterNW a ++ filterNW b := by rw [filterNW_trimStart]
      _ = filterNW text := by
          rw [haeq, hbeq, ← filterNW_append, List.take_append_drop]
  · refine ⟨?_, ?_, ?_⟩
    · rw [← hchunk, haeq]; simp
    · rw [← hchunk, haeq]
      exact trim_ne_nil hgstake htne
    · rw [← hrest]; exact goodStart_trimStart b

/-- Every chunk list produced by the `split_long_text` loop carries exactly
the non-whitespace bytes of its input, respects the budget, and consists
of pieces that survive trimming. -/
theorem splitLongGo_spec {mx : Nat} (hmax : 0 < mx) :
    ∀ (fuel : Nat) (remaining : Str) (l : List Str),
      goodStart remaining = true → splitLongGo mx fuel remaining = some l →
      filterNW l.flatten = filterNW remaining ∧ ∀ p ∈ l, p.length ≤ mx ∧ trim p ≠ [] := by
  intro fuel
  induction fuel with
  | zero =>
    intro remaining l hgs h
    rw [splitLongGo] at h
    split at h
    · cases h
      next hemp =>
        rw [List.isEmpty_iff.mp hemp]
        exact ⟨rfl, by simp⟩
    · exact absurd h (by simp)
  | succ fuel ih =>
    intro remaining l hgs h
    rw [splitLongGo] at h
    by_cases hemp : remaining.isEmpty
    · rw [if_pos hemp] at h
      cases h
      rw [List.isEmpty_iff.mp hemp]
      exact ⟨rfl, by simp⟩
    · rw [if_neg hemp] at h
      have hne : remaining ≠ [] := by simpa using hemp
      by_cases hfit : remaining.length ≤ mx
      · rw [if_pos hfit] at h
        cases h
        refine ⟨by simp [filterNW_trim], ?_⟩
        intro p hp
        rw [List.mem_singleton] at hp
        subst hp
        exact ⟨le_trans (trim_length_le _) hfit,
          trim_ne_nil (goodStart_trim _) (trim_ne_nil hgs hne)⟩
      · rw [if_neg hfit] at h
        have hlen : mx < remaining.length := Nat.not_le.mp hfit
        cases hts : try_split_at_boundary remaining mx with
        | none => rw [hts] at h; exact absurd h (by simp)
        | some cr =>
          obtain ⟨chunk, rest⟩ := cr
          rw [hts] at h
          dsimp only at h
          cases hrec : splitLongGo mx fuel rest with
          | none => rw [hrec] at h; exact absurd h (by simp)
          | some l' =>
            rw [hrec] at h
            dsimp only at h
            cases h
            obtain ⟨hfil, hclen, hctrim, hgsrest⟩ := try_split_spec hmax hgs hlen hts
            obtain ⟨hfil', hprops⟩ := ih rest l' hgsrest hrec
            refine ⟨?_, ?_⟩
            · rw [List.flatten_cons, filterNW_append, hfil', hfil]
            · intro p hp
              rcases List.mem_cons.mp hp with hp | hp
              · subst hp; exact ⟨hclen, hctrim⟩
              · exact hprops p hp

theorem split_long_text_spec {text : Str} {mx : Nat} {l : List Str}
    (hmax : 0 < mx) (hgs : goodStart text = true)
    (h : split_long_text text mx = some l) :
    filterNW l.flatten = filterNW text ∧ ∀ p ∈ l, p.length ≤ mx ∧ trim p ≠ [] :=
  splitLongGo_spec hmax _ _ _ hgs h

/-- Specification of one paragraph's processing in `split_into_chunks`. -/
theorem paraChunks_spec {mx : Nat} {para : Str} {l : List Str} (hmax : 0 < mx)
    (h : paraChunks mx para = some l) :
    filterNW l.flatten = filterNW para ∧ ∀ p ∈ l, p.length ≤ mx ∧ trim p ≠ [] := by
  rw [paraChunks] at h
  by_cases hemp : (trim para).isEmpty
  · rw [if_pos hemp] at h
    cases h
    refine ⟨?_, by simp⟩
    rw [← filterNW_trim para, List.isEmpty_iff.mp hemp]
    rfl
  · rw [if_neg hemp] at h
    have hne : trim para ≠ [] := by simpa using hemp
    by_cases hfit : (trim para).length ≤ mx
    · rw [if_pos hfit] at h
      cases h
      refine ⟨by simp [filterNW_trim], ?_⟩
      intro p hp
      rw [List.mem_singleton] at hp
      subst hp
      exact ⟨hfit, trim_ne_nil (goodStart_trim _) hne⟩
    · rw [if_neg hfit] at h
      obtain ⟨hfil, hprops⟩ := split_long_text_spec hmax (goodStart_trim para) h
      exact ⟨by rw [hfil, filterNW_trim], hprops⟩

theorem mapOpt_forall₂ {f : α → Option β} :
    ∀ {xs : List α} {ys : List β}, mapOpt f xs = some ys →
      List.Forall₂ (fun x y => f x = some y) xs ys := by
  intro xs
  induction xs with
  | nil =>
    intro ys h
    rw [mapOpt] at h
    cases h
    exact List.Forall₂.nil
  | cons x xs ih =>
    intro ys h
    rw [mapOpt] at h
    cases hx : f x with
    | none => rw [hx] at h; exact absurd h (by simp)
    | some y =>
      rw [hx] at h
      dsimp only at h
      cases hxs : mapOpt f xs with
      | none => rw [hxs] at h; exact absurd h (by simp)
      | some ys' =>
        rw [hxs] at h
        dsimp only at h
        cases h
        exact List.Forall₂.cons hx (ih hxs)

/-- The paragraph pass as a whole: flattening all per-paragraph chunk lists
preserves the non-whitespace bytes of the concatenated paragraphs. -/
theorem para_pass_spec {mx : Nat} (hmax : 0 < mx) :
    ∀ {paras : List Str} {ls : List (List Str)},
      List.Forall₂ (fun x y => paraChunks mx x = some y) paras ls →
      filterNW ls.flatten.flatten = filterNW paras.flatten ∧
        ∀ p ∈ ls.flatten, p.length ≤ mx ∧ trim p ≠ [] := by
  intro paras ls hf
  induction hf with
  | nil => exact ⟨rfl, by simp⟩
  | cons hxy hrest ih =>
    obtain ⟨hfil, hprops⟩ := paraChunks_spec hmax hxy
    obtain ⟨hfil', hprops'⟩ := ih
    refine ⟨?_, ?_⟩
    · rw [List.flatten_cons, List.flatten_append, filterNW_append,
        List.flatten_cons, filterNW_append, hfil, hfil']
    · intro p hp
      rw [List.flatten_cons, List.mem_append] at hp
      rcases hp with hp | hp
      · exact hprops p hp
      · exact hprops' p hp

/-- Splitting at blank lines preserves the non-whitespace bytes: the
separators consumed by `splitNN` are newline bytes. -/
theorem filterNW_splitNNGo :
    ∀ (acc s : Str), filterNW (splitNNGo acc s).flatten = filterNW (acc.reverse ++ s) := by
  intro acc s
  induction acc, s using splitNNGo.induct with
  | case1 acc => simp [splitNNGo.eq_1, filterNW_append, filterNW]
  | case2 acc rest ih =>
    rw [splitNNGo.eq_2, List.flatten_cons, filterNW_append, ih]
    rw [filterNW_append, filterNW_append]
    rw [filterNW_cons_ws (by simp [isWsByte]), filterNW_cons_ws (by simp [isWsByte])]
    simp [filterNW]
  | case3 acc c rest hne ih =>
    rw [splitNNGo.eq_3 _ _ _ hne, ih]
    rw [filterNW_append, filterNW_append]
    simp only [filterNW, List.reverse_cons, List.filter_append, List.append_assoc,
      List.filter_cons]
    by_cases hc : isWsByte c <;> simp [hc]

theorem filterNW_splitNN (s : Str) : filterNW (splitNN s).flatten = filterNW s := by
  rw [splitNN, filterNW_splitNNGo]
  rfl

/-- `split_into_chunks` preserves non-whitespace bytes, respects a positive
budget, and only emits pieces that survive trimming. -/
theorem split_into_chunks_spec {text : Str} {mx : Nat} {pieces : List Str}
    (hmax : 0 < mx) (h : split_into_chunks text mx = some pieces) :
    filterNW pieces.flatten = filterNW text ∧
      ∀ p ∈ pieces, p.length ≤ mx ∧ trim p ≠ [] := by
  rw [split_into_chunks, if_neg (Nat.pos_iff_ne_zero.mp hmax)] at h
  cases hm : mapOpt (paraChunks mx) (splitNN text) with
  | none => rw [hm] at h; exact absurd h (by simp)
  | some ls =>
    rw [hm] at h
    dsimp only at h
    by_cases hfb : ls.flatten.isEmpty && !(trim text).isEmpty
    · rw [if_pos hfb] at h
      obtain ⟨hfil, hprops⟩ := split_long_text_spec hmax (goodStart_trim text) h
      exact ⟨by rw [hfil, filterNW_trim], hprops⟩
    · rw [if_neg hfb] at h
      cases h
      obtain ⟨hfil, hprops⟩ := para_pass_spec hmax (mapOpt_forall₂ hm)
      exact ⟨by rw [hfil, filterNW_splitNN], hprops⟩

/-- When every piece survives trimming, the chunk-building `filterMap` in
`chunk_note` drops nothing, so it is a plain `map` over the enumeration. -/
theorem enum_chunks_eq (path : Str) :
    ∀ (l : List Str) (n : Nat), (∀ p ∈ l, trim p ≠ []) →
      ((List.enumFrom n l).filterMap fun it =>
        if (trim it.2).isEmpty then none
        else some ({ text := trim it.2, note_path := path, index := it.1 } : Chunk))
      = (List.enumFrom n l).map fun it =>
          ({ text := trim it.2, note_path := path, index := it.1 } : Chunk) := by
  intro l
  induction l with
  | nil => intro n _; rfl
  | cons p ps ih =>
    intro n h
    have hp : ¬(trim p).isEmpty = true := by
      simpa using h p (List.mem_cons_self p ps)
    rw [List.enumFrom_cons, List.filterMap_cons, List.map_cons]
    dsimp only
    rw [if_neg hp]
    rw [ih (n + 1) fun q hq => h q (List.mem_cons_of_mem _ hq)]

theorem enum_chunks_index (path : Str) :
    ∀ (l : List Str) (n : Nat),
      (((List.enumFrom n l).map fun it =>
          ({ text := trim it.2, note_path := path, index := it.1 } : Chunk)).map (·.index)
        = List.range' n l.length)
      ∧ (((List.enumFrom n l).map fun it =>
          ({ text := trim it.2, note_path := path, index := it.1 } : Chunk)).map (·.text)
        = l.map trim) := by
  intro l
  induction l with
  | nil => intro n; exact ⟨rfl, rfl⟩
  | cons p ps ih =>
    intro n
    obtain ⟨ih1, ih2⟩ := ih (n + 1)
    constructor
    · rw [List.enumFrom_cons, List.map_cons, List.map_cons, ih1]
      rfl
    · rw [List.enumFrom_cons, List.map_cons, List.map_cons, ih2]
      rfl

theorem filterNW_flatten_map_trim : ∀ l : List Str,
    filterNW (l.map trim).flatten = filterNW l.flatten := by
  intro l
  induction l with
  | nil => rfl
  | cons x xs ih =>
    rw [List.map_cons, List.flatten_cons, List.flatten_cons,
      filterNW_append, filterNW_append, filterNW_trim, ih]

/-- Structure of every successful `chunk_note` run: either the trimmed body
was empty and there are no chunks, or the chunks are exactly the trimmed
pieces of `split_into_chunks`, in order, enumerated from zero, every piece
surviving trimming (so none is skipped by the emptiness filter). -/
theorem chunk_note_eq {note : Note} {mx : Nat} {cs : List Chunk}
    (h : chunk_note note mx = some cs) :
    (trim note.body = [] ∧ cs = []) ∨
    ∃ pieces, (∀ p ∈ pieces, trim p ≠ []) ∧
      (0 < mx → ∀ p ∈ pieces, p.length ≤ mx) ∧
      filterNW pieces.flatten = filterNW note.body ∧
      cs = (List.enumFrom 0 pieces).map fun it =>
        ({ text := trim it.2, note_path := note.path, index := it.1 } : Chunk) := by
  rw [chunk_note] at h
  by_cases hemp : (trim note.body).isEmpty
  · rw [if_pos hemp] at h
    cases h
    exact Or.inl ⟨List.isEmpty_iff.mp hemp, rfl⟩
  · rw [if_neg hemp] at h
    have hne : trim note.body ≠ [] := by simpa using hemp
    cases hsp : split_into_chunks (trim note.body) mx with
    | none => rw [hsp] at h; exact absurd h (by simp)
    | some pieces =>
      rw [hsp] at h
      dsimp only at h
      have htrims : ∀ p ∈ pieces, trim p ≠ [] := by
        rcases Nat.eq_zero_or_pos mx with hz | hpos
        · subst hz
          rw [split_into_chunks, if_pos rfl] at hsp
          cases hsp
          intro p hp
          rw [List.mem_singleton] at hp
          subst hp
          exact trim_ne_nil (goodStart_trim _) hne
        · exact fun p hp => ((split_into_chunks_spec hpos hsp).2 p hp).2
      refine Or.inr ⟨pieces, htrims, ?_, ?_, ?_⟩
      · exact fun hpos p hp => ((split_into_chunks_spec hpos hsp).2 p hp).1
      · rcases Nat.eq_zero_or_pos mx with hz | hpos
        · subst hz
          rw [split_into_chunks, if_pos rfl] at hsp
          cases hsp
          rw [← filterNW_trim note.body]
          simp
        · rw [(split_into_chunks_spec hpos hsp).1, filterNW_trim]
      · cases h
        have := enum_chunks_eq note.path pieces 0 htrims
        rw [List.enum] at *
        simpa using this

/-- C1: for every note and positive budget, every chunk emitted by a
successful (non-panicking) `chunk_note` run has trimmed text of length at
most the budget — including the hard-cut pieces of an over-long
whitespace-free run, which are cut to exactly the budget before the final
trim. -/
theorem chunk_budget_bound (note : Note) (mx : Nat) (cs : List Chunk)
    (hmax : 0 < mx) (h : chunk_note note mx = some cs) :
    ∀ c ∈ cs, c.text.length ≤ mx := by
  rcases chunk_note_eq h with ⟨_, hcs⟩ | ⟨pieces, htrims, hlen, hfil, hcs⟩
  · subst hcs; intro c hc; simp at hc
  · subst hcs
    intro c hc
    have htext : c.text ∈ pieces.map trim := by
      rw [← (enum_chunks_index note.path pieces 0).2]
      exact List.mem_map_of_mem _ hc
    obtain ⟨p, hp, hpt⟩ := List.mem_map.mp htext
    rw [← hpt]
    exact le_trans (trim_length_le p) (hlen hmax p hp)

theorem chunk_budget_bound_witness :
    (Chunk.mk [97, 98] [112] 0).text.length ≤ 5 :=
  chunk_budget_bound ⟨[112], [], [97, 98]⟩ 5 [⟨[97, 98], [112], 0⟩]
    (by decide) (by decide) _ (by decide)

/-- C2: for every note and budget, a successful `chunk_note` run covers the
body up to whitespace: the non-whitespace bytes of the concatenation of all
chunk texts, in order, are exactly the non-whitespace bytes of the body —
nothing is duplicated and nothing but whitespace is dropped. -/
theorem chunk_concat_covers_body (note : Note) (mx : Nat) (cs : List Chunk)
    (h : chunk_note note mx = some cs) :
    filterNW (cs.map (·.text)).flatten = filterNW note.body := by
  rcases chunk_note_eq h with ⟨hnil, hcs⟩ | ⟨pieces, htrims, hlen, hfil, hcs⟩
  · subst hcs
    rw [filterNW_eq_nil_of_trim_eq_nil hnil]
    rfl
  · subst hcs
    rw [List.map_map]
    have : ((List.enumFrom 0 pieces).map fun it =>
        ({ text := trim it.2, note_path := note.path, index := it.1 } : Chunk)).map (·.text)
        = pieces.map trim := (enum_chunks_index note.path pieces 0).2
    rw [List.map_map] at this
    rw [this, filterNW_flatten_map_trim, hfil]

theorem chunk_concat_covers_body_witness :
    filterNW (([⟨[80, 49], [112], 0⟩, ⟨[80, 50], [112], 1⟩] : List Chunk).map (·.text)).flatten
      = filterNW [80, 49, 10, 10, 80, 50] :=
  chunk_concat_covers_body ⟨[112], [], [80, 49, 10, 10, 80, 50]⟩ 512
    [⟨[80, 49], [112], 0⟩, ⟨[80, 50], [112], 1⟩] (by decide)

/-- C3: for every note and budget, the indices of the chunks returned by a
successful `chunk_note` run are exactly `0, 1, 2, …` in emission order,
and every chunk records the note's path. -/
theorem chunk_indices_contiguous (note : Note) (mx : Nat) (cs : List Chunk)
    (h : chunk_note note mx = some cs) :
    cs.map (·.index) = List.range cs.length ∧ ∀ c ∈ cs, c.note_path = note.path := by
  rcases chunk_note_eq h with ⟨_, hcs⟩ | ⟨pieces, htrims, hlen, hfil, hcs⟩
  · subst hcs; exact ⟨rfl, by simp⟩
  · subst hcs
    constructor
    · have h1 := (enum_chunks_index note.path pieces 0).1
      rw [List.map_map] at h1 ⊢
      rw [h1, List.length_map, List.enumFrom_length, List.range_eq_range']
    · intro c hc
      obtain ⟨it, hit, hceq⟩ := List.mem_map.mp hc
      rw [← hceq]

theorem chunk_indices_contiguous_witness :
    ([⟨[80, 49], [112], 0⟩, ⟨[80, 50], [112], 1⟩] : List Chunk).map (·.index)
        = List.range ([⟨[80, 49], [112], 0⟩, ⟨[80, 50], [112], 1⟩] : List Chunk).length
      ∧ ∀ c ∈ ([⟨[80, 49], [112], 0⟩, ⟨[80, 50], [112], 1⟩] : List Chunk),
        c.note_path = [112] :=
  chunk_indices_contiguous ⟨[112], [], [80, 49, 10, 10, 80, 50]⟩ 512
    [⟨[80, 49], [112], 0⟩, ⟨[80, 50], [112], 1⟩] (by decide)

/-- C10 (code bug): `chunk_note` "panics" (returns `none` in this model)
on a perfectly valid UTF-8 body — four two-byte Cyrillic characters — with
budget 2: `try_split_at_boundary` slices the text at byte offset
`min (len, budget + 1) = 3`, which falls in the middle of the second
character, failing Rust's char-boundary check. -/
theorem chunk_note_panics_on_multibyte :
    chunk_note ⟨[112], [], [208, 176, 208, 176, 208, 176, 208, 176]⟩ 2 = none := by
  decide

/-- Split at every newline byte (for the claim-level reading of
frontmatter stripping in terms of lines). -/
def splitNLGo : Str → Str → List Str
  | acc, [] => [acc.reverse]
  | acc, 10 :: rest => acc.reverse :: splitNLGo [] rest
  | acc, c :: rest => splitNLGo (c :: acc) rest

/-- The lines of a byte string. -/
def linesOf (s : Str) : List Str := splitNLGo [] s

/-- Join lines with newline bytes. -/
def joinNL (ls : List Str) : Str := (ls.intersperse [10]).flatten

/-- Modelled from the spec: the claim's reading of `strip_frontmatter`,
in which the terminating delimiter must be the three-hyphen line on its
own ("the next occurrence of that delimiter on its own line").  The body
is everything after that line, with leading whitespace trimmed; with no
such line the content is returned unchanged.  Used only to exhibit the
divergence from the code's substring search. -/
def strip_frontmatter_claim (content : Str) : Str :=
  let s := trimStart content
  match linesOf s with
  | [] => content
  | first :: rest =>
    if first = hyphen3 then
      match rest.findIdx? (fun ln => ln == hyphen3) with
      | some j => trimStart (joinNL (rest.drop (j + 1)))
      | none => content
    else content

/-- C4 (counterexample): on the content `"---\n---\nX"` the terminating
delimiter `---` does appear on its own line (the second line), so the
claim prescribes the body `"X"`; the code instead returns the whole
content unchanged, because it trimmed away the newline after the opening
delimiter and then finds no `"\n---"` substring. -/
theorem strip_frontmatter_own_line_counterexample :
    strip_frontmatter [45, 45, 45, 10, 45, 45, 45, 10, 88]
        = [45, 45, 45, 10, 45, 45, 45, 10, 88]
      ∧ strip_frontmatter_claim [45, 45, 45, 10, 45, 45, 45, 10, 88] = [88]
      ∧ ([45, 45, 45, 10, 45, 45, 45, 10, 88] : Str) ≠ [88] := by
  decide

/-- C4 (amended): `strip_frontmatter` treats the content as frontmatter-led
when the trimmed content starts with `"---"`; it then searches the
remainder after that opening `"---"` (leading whitespace trimmed) for the
first occurrence of the four-byte substring `"\n---"` — not necessarily a
delimiter on its own line.  If found, the body is everything after those
four bytes with leading whitespace trimmed; otherwise, and also when the
content does not start with `"---"`, the content is returned unchanged.
The content `"---\ntitle: X\n---\n\nHello world."` yields
`"Hello world."`. -/
theorem strip_frontmatter_spec_amended :
    (∀ content : Str, hyphen3.isPrefixOf (trimStart content) = false →
      strip_frontmatter content = content)
    ∧ (∀ content : Str, hyphen3.isPrefixOf (trimStart content) = true →
      findSub (trimStart ((trimStart content).drop 3)) nlHyphen3 = none →
      strip_frontmatter content = content)
    ∧ (∀ (content : Str) (r : Nat), hyphen3.isPrefixOf (trimStart content) = true →
      findSub (trimStart ((trimStart content).drop 3)) nlHyphen3 = some r →
      strip_frontmatter content
        = trimStart ((trimStart ((trimStart content).drop 3)).drop (r + 4)))
    ∧ strip_frontmatter
        ([45, 45, 45, 10] ++ [116, 105, 116, 108, 101, 58, 32, 88] ++
          [10, 45, 45, 45, 10, 10] ++ [72, 101, 108, 108, 111, 46])
      = [72, 101, 108, 108, 111, 46] := by
  refine ⟨?_, ?_, ?_, by decide⟩
  · intro content hno
    rw [strip_frontmatter]
    simp [hno]
  · intro content hyes hnone
    rw [strip_frontmatter]
    simp only [hyes, if_true, hnone]
  · intro content r hyes hfind
    rw [strip_frontmatter]
    simp only [hyes, if_true, hfind]

theorem strip_frontmatter_spec_amended_witness :
    strip_frontmatter [104, 105] = [104, 105] :=
  strip_frontmatter_spec_amended.1 [104, 105] (by decide)

/-! ## Store claim theorems -/

theorem sumSq_map_div (v : List ℚ) (n : ℚ) :
    Store.sumSq (v.map (fun x => x / n)) = Store.sumSq v / (n * n) := by
  induction v with
  | nil => simp [Store.sumSq]
  | cons x xs ih =>
    simp only [Store.sumSq, List.map_cons, List.sum_cons] at ih ⊢
    rw [ih, div_mul_div_comm, div_add_div_same]

/-- C5: `VectorStore::add` appends exactly one new entry at the end —
never overwriting an existing one — whose stored embedding is the
normalization of the input: unchanged when the computed norm is
non-positive (so the degenerate zero vector is preserved with no division),
and divided componentwise by the norm when the norm is positive, in which
case (for a square root consistent with the sum of squares) the stored
vector has unit Euclidean norm. -/
theorem add_appends_normalized (f : ℚ → ℚ) (s : VectorStore) (c : Chunk) (v : List ℚ) :
    ((s.add f c v).items = s.items ++ [⟨c, Store.normalize f v⟩])
    ∧ (f (Store.sumSq v) ≤ 0 → Store.normalize f v = v)
    ∧ (0 < f (Store.sumSq v) →
        Store.normalize f v = v.map (fun x => x / f (Store.sumSq v)))
    ∧ (0 < f (Store.sumSq v) → f (Store.sumSq v) * f (Store.sumSq v) = Store.sumSq v →
        Store.sumSq (Store.normalize f v) = 1) := by
  refine ⟨rfl, ?_, ?_, ?_⟩
  · intro hle
    rw [Store.normalize]
    simp only [if_pos hle]
  · intro hpos
    rw [Store.normalize]
    simp only [if_neg (not_le.mpr hpos)]
  · intro hpos hsq
    rw [Store.normalize]
    simp only [if_neg (not_le.mpr hpos)]
    rw [sumSq_map_div, hsq]
    have hne : Store.sumSq v ≠ 0 := by
      rw [← hsq]
      exact ne_of_gt (mul_pos hpos hpos)
    exact div_self hne

theorem add_appends_normalized_witness :
    Store.sumSq (Store.normalize (fun _ => 5) [3, 4]) = 1 :=
  (add_appends_normalized (fun _ => 5) VectorStore.new ⟨[], [], 0⟩ [3, 4]).2.2.2
    (by norm_num) (by norm_num [Store.sumSq])

/-- C6: `search` returns an empty sequence whenever the store is empty, the
query embedding is empty, or `k = 0`; and in every case it returns exactly
`min k n` results, where `n` is the number of stored entries — so never
more than `k` and never more than the store holds, and all entries when
fewer than `k` exist. -/
theorem search_result_count (f : ℚ → ℚ) (s : VectorStore) (q : List ℚ) (k : Nat) :
    ((s.items = [] ∨ q = [] ∨ k = 0) → s.search f q k = [])
    ∧ (s.search f q k).length ≤ min k s.items.length
    ∧ (s.items ≠ [] → q ≠ [] → (s.search f q k).length = min k s.items.length) := by
  have hlen : ∀ h1 : ¬(s.items.isEmpty || q.isEmpty), (s.search f q k).length
      = min k s.items.length := by
    intro h1
    rw [VectorStore.search, if_neg h1]
    rw [List.length_take]
    congr 1
    rw [(List.mergeSort_perm _ scoreLe).length_eq, List.length_map]
  refine ⟨?_, ?_, ?_⟩
  · rintro (hs | hq | hk)
    · rw [VectorStore.search, if_pos (by simp [hs])]
    · rw [VectorStore.search, if_pos (by simp [hq])]
    · subst hk
      rw [VectorStore.search]
      split
      · rfl
      · exact List.take_zero _
  · by_cases h1 : s.items.isEmpty || q.isEmpty
    · rw [VectorStore.search, if_pos h1]
      simp
    · exact le_of_eq (hlen h1)
  · intro hs hq
    exact hlen (by simp [hs, hq])

theorem search_result_count_witness :
    ((VectorStore.mk [⟨⟨[97], [112], 0⟩, [1]⟩]).search (fun _ => 0) [1] 3).length = min 3 1 :=
  (search_result_count (fun _ => 0) (VectorStore.mk [⟨⟨[97], [112], 0⟩, [1]⟩]) [1] 3).2.2
    (by simp) (by simp)

theorem scoreLe_trans (a b c : Chunk × ℚ) :
    scoreLe a b → scoreLe b c → scoreLe a c := by
  simp only [scoreLe, decide_eq_true_eq]
  exact fun h1 h2 => le_trans h2 h1

theorem scoreLe_total (a b : Chunk × ℚ) : scoreLe a b || scoreLe b a := by
  simp only [scoreLe]
  rcases le_total a.2 b.2 with h | h <;> simp [h]

/-- C7: the sequence returned by `search` is sorted by non-increasing
score, and the underlying stable sort keeps insertion order among equal
scores: every selection of scored entries, taken in the store's insertion
order, whose scores are non-increasing (in particular any run of entries
with equal scores) is still a sublist — in that same order — of the full
result returned when `k` is the store's size. -/
theorem search_sorted_stable (f : ℚ → ℚ) (s : VectorStore) (q : List ℚ) (k : Nat)
    (hq : q ≠ []) :
    ((s.search f q k).Pairwise (fun a b => b.2 ≤ a.2))
    ∧ (∀ c : List (Chunk × ℚ), c.Pairwise (fun a b => b.2 ≤ a.2) →
        List.Sublist c
          (s.items.map fun ic => (ic.chunk, Store.dot (Store.normalize f q) ic.embedding)) →
        List.Sublist c (s.search f q s.items.length)) := by
  by_cases hs : s.items.isEmpty
  · constructor
    · rw [VectorStore.search, if_pos (by simp [hs])]
      exact List.Pairwise.nil
    · intro c hc hsub
      rw [List.isEmpty_iff.mp hs] at hsub
      have hc0 : c = [] := List.sublist_nil.mp (by simpa using hsub)
      subst hc0
      exact List.nil_sublist _
  · have hcond : ¬(s.items.isEmpty || q.isEmpty) = true := by
      simp [hs, hq]
    constructor
    · rw [VectorStore.search, if_neg hcond]
      have hsorted := List.sorted_mergeSort scoreLe_trans scoreLe_total
        (s.items.map (fun ic => (ic.chunk, Store.dot (Store.normalize f q) ic.embedding)))
      have htake := hsorted.sublist (List.take_sublist k _)
      exact htake.imp fun hab => by
        simpa [scoreLe, decide_eq_true_eq] using hab
    · intro c hc hsub
      rw [VectorStore.search, if_neg hcond]
      have hc' : c.Pairwise fun a b => scoreLe a b := by
        exact hc.imp fun hab => by simpa [scoreLe, decide_eq_true_eq] using hab
      have hsub' := List.sublist_mergeSort scoreLe_trans scoreLe_total hc' hsub
      have hlen : ((s.items.map (fun ic =>
          (ic.chunk, Store.dot (Store.normalize f q) ic.embedding))).mergeSort scoreLe).length
          ≤ s.items.length := by
        rw [(List.mergeSort_perm _ scoreLe).length_eq, List.length_map]
      rw [List.take_of_length_le hlen]
      exact hsub'

theorem search_sorted_stable_witness :
    ((VectorStore.mk [⟨⟨[97], [112], 0⟩, [1]⟩]).search (fun _ => 0) [1] 1).Pairwise
      (fun a b => b.2 ≤ a.2) :=
  (search_sorted_stable (fun _ => 0) (VectorStore.mk [⟨⟨[97], [112], 0⟩, [1]⟩]) [1] 1
    (by simp)).1

theorem zipWith_take_min (g : ℚ → ℚ → ℚ) : ∀ (a b : List ℚ),
    List.zipWith g (a.take (min a.length b.length)) (b.take (min a.length b.length))
      = List.zipWith g a b := by
  intro a
  induction a with
  | nil => intro b; simp
  | cons x xs ih =>
    intro b
    cases b with
    | nil => simp
    | cons y ys =>
      simp only [List.length_cons, Nat.succ_min_succ, List.take_succ_cons,
        List.zipWith_cons_cons]
      rw [ih ys]

/-- C8: the similarity score is a dot product over the overlapping prefix
of the two vectors: `dot` equals the sum of the pointwise products of the
(length-truncating) zip, it is unchanged by truncating both vectors to
their common length `min (len a) (len b)` — so a dimension mismatch never
reads out of bounds and raises no error — and every score returned by
`search` is such a dot product of the normalized query with a stored
embedding. -/
theorem dot_overlapping (a b : List ℚ) :
    (Store.dot a b = (List.zipWith (· * ·) a b).sum)
    ∧ (Store.dot a b
        = Store.dot (a.take (min a.length b.length)) (b.take (min a.length b.length)))
    ∧ (∀ (f : ℚ → ℚ) (s : VectorStore) (q : List ℚ) (k : Nat) (x : Chunk × ℚ),
        x ∈ s.search f q k → ∃ ic ∈ s.items,
          x = (ic.chunk, Store.dot (Store.normalize f q) ic.embedding)) := by
  have hcons : ∀ (x y : ℚ) (xs ys : List ℚ),
      Store.dot (x :: xs) (y :: ys) = x * y + Store.dot xs ys := by
    intro x y xs ys
    simp only [Store.dot, List.length_cons, Nat.succ_min_succ, List.range_succ_eq_map,
      List.map_cons, List.sum_cons, List.map_map, List.getD_cons_zero]
    congr 1
  have hzip : ∀ u v : List ℚ, Store.dot u v = (List.zipWith (· * ·) u v).sum := by
    intro u
    induction u with
    | nil => intro v; simp [Store.dot]
    | cons x xs ih =>
      intro v
      cases v with
      | nil => simp [Store.dot]
      | cons y ys =>
        rw [hcons, List.zipWith_cons_cons, List.sum_cons, ih ys]
  refine ⟨hzip a b, ?_, ?_⟩
  · rw [hzip, hzip, ← zipWith_take_min (· * ·) a b]
  · intro f s q k x hx
    rw [VectorStore.search] at hx
    split at hx
    · simp at hx
    · have hx' : x ∈ ((s.items.map fun ic =>
          (ic.chunk, Store.dot (Store.normalize f q) ic.embedding)).mergeSort scoreLe) :=
        List.mem_of_mem_take hx
      rw [(List.mergeSort_perm _ scoreLe).mem_iff] at hx'
      obtain ⟨ic, hic, hxeq⟩ := List.mem_map.mp hx'
      exact ⟨ic, hic, hxeq.symm⟩

theorem dot_overlapping_witness :
    ∃ ic ∈ ([⟨⟨[97], [112], 0⟩, [2, 3]⟩] : List IndexedChunk),
      ((⟨[97], [112], 0⟩ : Chunk), Store.dot (Store.normalize (fun _ => 0) [1]) [2, 3])
        = (ic.chunk, Store.dot (Store.normalize (fun _ => 0) [1]) ic.embedding) :=
  (dot_overlapping [] []).2.2 (fun _ => 0)
    (VectorStore.mk [⟨⟨[97], [112], 0⟩, [2, 3]⟩]) [1] 1
    ((⟨[97], [112], 0⟩ : Chunk), Store.dot (Store.normalize (fun _ => 0) [1]) [2, 3])
    (by
      rw [VectorStore.search, if_neg (by simp)]
      simp only [List.map_cons, List.map_nil]
      rw [show ∀ z : Chunk × ℚ, List.mergeSort [z] scoreLe = [z] from fun z => by
        rw [List.mergeSort]]
      simp)

theorem add_batch_foldl_items (f : ℚ → ℚ) : ∀ (l : List (Chunk × List ℚ)) (s : VectorStore),
    (l.foldl (fun st p => st.add f p.1 p.2) s).items
      = s.items ++ l.map (fun p => ⟨p.1, Store.normalize f p.2⟩) := by
  intro l
  induction l with
  | nil => intro s; simp
  | cons p ps ih =>
    intro s
    rw [List.foldl_cons, ih, VectorStore.add]
    simp

/-- C9: `build_index` propagates a scan failure unchanged and produces no
store; when chunking yields no chunks it returns an empty store with the
embedding provider never invoked (the result is the same for every
provider, even an always-failing one); when the batched provider call
fails it returns that failure and no store (not even partial); and on a
successful provider call returning one embedding per chunk it returns a
store holding exactly one entry per chunk, in chunk order. -/
theorem build_index_pipeline {ε ω : Type} (f : ℚ → ℚ) :
    (∀ (e : ε) (embed : List Str → Except ω (List (List ℚ))) (mc : Option Nat),
      build_index f (.error e) embed mc = some (.error (.scan e)))
    ∧ (∀ (notes : List Note) (embed : List Str → Except ω (List (List ℚ)))
        (mc : Option Nat),
        chunk_notes notes (mc.getD DEFAULT_MAX_CHARS) = some [] →
        build_index f (Except.ok (ε := ε) notes) embed mc = some (.ok VectorStore.new))
    ∧ (∀ (notes : List Note) (embed : List Str → Except ω (List (List ℚ)))
        (mc : Option Nat) (chunks : List Chunk) (w : ω),
        chunk_notes notes (mc.getD DEFAULT_MAX_CHARS) = some chunks → chunks ≠ [] →
        embed (chunks.map (·.text)) = .error w →
        build_index f (Except.ok (ε := ε) notes) embed mc = some (.error (.ollama w)))
    ∧ (∀ (notes : List Note) (embed : List Str → Except ω (List (List ℚ)))
        (mc : Option Nat) (chunks : List Chunk) (es : List (List ℚ)),
        chunk_notes notes (mc.getD DEFAULT_MAX_CHARS) = some chunks → chunks ≠ [] →
        embed (chunks.map (·.text)) = .ok es → es.length = chunks.length →
        ∃ store, build_index f (Except.ok (ε := ε) notes) embed mc = some (.ok store)
          ∧ store.items.map (·.chunk) = chunks) := by
  refine ⟨fun e embed mc => rfl, ?_, ?_, ?_⟩
  · intro notes embed mc hchunks
    rw [build_index.eq_def]
    dsimp only
    rw [hchunks]
    rfl
  · intro notes embed mc chunks w hchunks hne hembed
    rw [build_index.eq_def]
    dsimp only
    rw [hchunks]
    dsimp only
    rw [if_neg (by simpa using hne), hembed]
  · intro notes embed mc chunks es hchunks hne hembed hlen
    rw [build_index.eq_def]
    dsimp only
    rw [hchunks]
    dsimp only
    rw [if_neg (by simpa using hne), hembed]
    dsimp only
    rw [VectorStore.add_batch, if_pos hlen.symm]
    dsimp only
    refine ⟨_, rfl, ?_⟩
    rw [add_batch_foldl_items, List.map_append, List.map_map]
    rw [show VectorStore.new.items = [] from rfl]
    simp only [List.map_nil, List.nil_append]
    rw [show ((fun ic : IndexedChunk => ic.chunk) ∘ fun p : Chunk × List ℚ =>
        (⟨p.1, Store.normalize f p.2⟩ : IndexedChunk)) = fun p => p.1 from rfl]
    exact List.map_fst_zip chunks es (le_of_eq hlen.symm)

theorem build_index_pipeline_witness :
    ∃ store,
      build_index (fun _ => 0) (Except.ok (ε := Nat) [⟨[112], [], [104, 105]⟩])
          (fun ts => Except.ok (ε := Nat) (ts.map fun _ => ([1] : List ℚ))) (some 5)
        = some (.ok store)
      ∧ store.items.map (·.chunk) = [⟨[104, 105], [112], 0⟩] :=
  (build_index_pipeline (fun _ => 0)).2.2.2 [⟨[112], [], [104, 105]⟩]
    (fun ts => Except.ok (ts.map fun _ => ([1] : List ℚ))) (some 5)
    [⟨[104, 105], [112], 0⟩] [[1]] (by decide) (by decide) rfl rfl
